import Mathlib

/-!
Verification of the block-based spatial-domain watermark codec of
`src/watermark_core.py` (classes `WatermarkEmbedder` and `WatermarkDetector`).

Modelling conventions of the shallow embedding:

* An image is a function `Nat → Nat → Nat` of 8-bit intensity samples
  together with explicit height/width parameters (mirroring `image.shape`);
  the code's `astype(np.uint8)` entry cast is modelled by `% 256`
  (`to_gray`).  The colour-to-gray averaging branch is outside the scope of
  the claims, which all concern single-channel grids.
* Identifier strings are represented by their UTF-8 byte sequences
  (`List Nat`, each entry < 256): `str.encode('utf-8')` is the identity of
  the model, and `bytes.decode('utf-8', errors='ignore')` is the identity
  on the valid UTF-8 byte sequences appearing in the claims.
* `float` arithmetic on pixel data is modelled exactly over `ℚ`: every
  quantity the code manipulates (integer pixels plus one strength delta,
  block means `sum/64`, medians) is exactly representable, and
  `astype(np.uint8)` on clipped data is `Int.floor ∘ toNat`
  (C truncation-toward-zero on a non-negative value).
* `np.median` is modelled by `np_median`: sort, middle element for odd
  length, average of the two middle elements for even length (junk value 0
  for the empty list, where NumPy yields NaN; the code never uses the
  threshold when there are no blocks).
* `np.bincount(bits).argmax()` over a 0/1 bit vector is the first-maximum
  rule: majority is 1 exactly when ones strictly outnumber zeros.
-/

/-- `WatermarkEmbedder._create_payload`:
`device_id.encode('utf-8')[:16].ljust(16, b'\x00') + session_id...`.
Identifiers are given as UTF-8 byte sequences. -/
def create_payload (dev ses : List Nat) : List Nat :=
  ((dev.take 16) ++ List.replicate (16 - (dev.take 16).length) 0) ++
  ((ses.take 16) ++ List.replicate (16 - (ses.take 16).length) 0)

/-- `WatermarkEmbedder._payload_to_bits`: for each payload byte in order,
emit its 8 bits least-significant first (`(byte >> i) & 1`). -/
def payload_to_bits (payload : List Nat) : List Nat :=
  payload.flatMap (fun b => (List.range 8).map (fun i => (b >>> i) &&& 1))

/-- The embedder's fixed 256-entry bit sequence, derived once from the
payload at construction time. -/
def payload_bits (dev ses : List Nat) : List Nat :=
  payload_to_bits (create_payload dev ses)

/-- One byte of `WatermarkDetector._bits_to_payload`:
`byte_val |= int(bit) << j` over the 8 positions of a chunk, a missing
position (chunk shorter than 8, zero-padded by `np.pad`) contributing 0. -/
def pack_byte (chunk : List Nat) : Nat :=
  (List.range 8).foldl (fun acc j => acc ||| (chunk.getD j 0 <<< j)) 0

/-- `WatermarkDetector._bits_to_payload`: keep the first 256 bits, pack
each 8-bit chunk (last chunk zero-padded) least-significant first. The
result has `⌈len/8⌉` bytes. -/
def bits_to_payload (bits0 : List Nat) : List Nat :=
  (List.range (((bits0.take 256).length + 7) / 8)).map
    (fun i => pack_byte ((bits0.take 256).drop (8 * i)))

/-- `payload[:16].rstrip(b'\x00')`: strip trailing zero bytes. -/
def rstrip_zeros (l : List Nat) : List Nat :=
  (l.reverse.dropWhile (· == 0)).reverse

/-- The `image.astype(np.uint8)` cast applied on entry by both `embed` and
`detect` (identity on genuine 8-bit samples). -/
def to_gray (img : Nat → Nat → Nat) : Nat → Nat → Nat :=
  fun r c => img r c % 256

/-- `np.clip(watermarked, 0, 255)` on one sample. -/
def rat_clip (x : ℚ) : ℚ := max 0 (min x 255)

/-- `result.astype(np.uint8)` on one clipped (hence non-negative) sample:
C float-to-integer conversion truncates toward zero, i.e. floor here. -/
def rat_to_uint8 (x : ℚ) : Nat := (⌊x⌋).toNat

/-- The complete 8×8 blocks scanned by both loops
(`range(0, h - 8 + 1, 8)` × `range(0, w - 8 + 1, 8)`), as their top-left
corners in row-major order. -/
def block_starts (h w : Nat) : List (Nat × Nat) :=
  (List.range (h / 8)).flatMap
    (fun bi => (List.range (w / 8)).map (fun bj => (8 * bi, 8 * bj)))

/-- The embedding loop of `WatermarkEmbedder.embed`: walk the block list
with the running `bit_index`, adding `+strength` to every pixel of a block
whose bit is 1 and `-strength` otherwise
(`bit = int(bits[bit_index % len(bits)])`). -/
def apply_blocks (bits : List Nat) (s : ℚ) :
    List (Nat × Nat) → Nat → (Nat → Nat → ℚ) → (Nat → Nat → ℚ)
  | [], _, g => g
  | (i, j) :: rest, k, g =>
      apply_blocks bits s rest (k + 1)
        (fun r c =>
          if i ≤ r ∧ r < i + 8 ∧ j ≤ c ∧ c < j + 8 then
            g r c + (if bits.getD (k % bits.length) 0 = 1 then s else -s)
          else g r c)

/-- `WatermarkEmbedder.embed`: cast to `uint8`, run the block loop on the
`float32` copy of the grid, then `np.clip(·, 0, 255).astype(np.uint8)`. -/
def embed (dev ses : List Nat) (h w : Nat) (img : Nat → Nat → Nat) (s : ℚ) :
    Nat → Nat → Nat :=
  let g := apply_blocks (payload_bits dev ses) s (block_starts h w) 0
    (fun r c => ((to_gray img r c : ℚ)))
  fun r c => rat_to_uint8 (rat_clip (g r c))

/-- `np.mean(block)` for the 8×8 block with top-left corner `(i, j)`:
exact sum of the 64 samples divided by 64. -/
def block_mean (g : Nat → Nat → Nat) (i j : Nat) : ℚ :=
  (((List.range 8).flatMap
      (fun r => (List.range 8).map (fun c => g (i + r) (j + c)))).sum : Nat) / 64

/-- First detector pass: append each block's mean, stopping (`break`) once
256 means have been collected. -/
def collect_means (g : Nat → Nat → Nat) (h w : Nat) : List ℚ :=
  (block_starts h w).foldl
    (fun acc ij =>
      if 256 ≤ acc.length then acc else acc ++ [block_mean g ij.1 ij.2]) []

/-- `np.median`: middle of the sorted list (odd length) or the average of
the two middle elements (even length); 0 as junk value on `[]`. -/
def np_median (l : List ℚ) : ℚ :=
  let srt := l.insertionSort (· ≤ ·)
  if l.length = 0 then 0
  else if l.length % 2 = 1 then srt.getD (l.length / 2) 0
  else (srt.getD (l.length / 2 - 1) 0 + srt.getD (l.length / 2) 0) / 2

/-- Second detector pass: classify each block as
`1 if mean_val > global_threshold else 0`, stopping at 256 blocks. -/
def extract_loop (g : Nat → Nat → Nat) (h w : Nat) (thr : ℚ) : List Nat :=
  (block_starts h w).foldl
    (fun acc ij =>
      if 256 ≤ acc.length then acc
      else acc ++ [if thr < block_mean g ij.1 ij.2 then 1 else 0]) []

/-- The detector's 256-entry bit sequence: two passes over the blocks with
the median of the collected means as global threshold, then
`while len < 256: append(0)` and the `[:256]` slice. -/
def extracted_bits (h w : Nat) (img : Nat → Nat → Nat) : List Nat :=
  let g := to_gray img
  let means := (collect_means g h w).take 256
  let bits := extract_loop g h w (np_median means)
  (bits ++ List.replicate (256 - bits.length) 0).take 256

/-- `WatermarkDetector._calculate_confidence`: fraction of bits equal to
the majority bit value, `np.bincount(bits).argmax()` resolving an exact
tie to 0 (first maximum). -/
def calculate_confidence (bits : List Nat) : ℚ :=
  if bits.length = 0 then 0
  else
    ((bits.count (if bits.count 0 < bits.count 1 then 1 else 0) : Nat) : ℚ) /
      (bits.length : Nat)

/-- The dictionary returned by `WatermarkDetector.detect`; `payload` keeps
the raw 32 bytes whose hexadecimal string the code returns. -/
structure DetectionResult where
  found : Bool
  device_id : List Nat
  session_id : List Nat
  confidence : ℚ
  payload : List Nat
deriving DecidableEq

/-- `WatermarkDetector.detect`. -/
def detect (h w : Nat) (img : Nat → Nat → Nat) : DetectionResult :=
  let bits := extracted_bits h w img
  let payload := bits_to_payload bits
  let device := rstrip_zeros (payload.take 16)
  let session := rstrip_zeros ((payload.drop 16).take 16)
  let conf := calculate_confidence bits
  { found := decide (0 < device.length ∧ (1 : ℚ) / 2 < conf)
    device_id := device
    session_id := session
    confidence := conf
    payload := payload }

/-- UTF-8 bytes of "DEVICE-001", the device identifier of the spec's
concrete scenario. -/
def device001 : List Nat := [68, 69, 86, 73, 67, 69, 45, 48, 48, 49]

/-- UTF-8 bytes of "SESSION-001", the session identifier of the spec's
concrete scenario. -/
def session001 : List Nat := [83, 69, 83, 83, 73, 79, 78, 45, 48, 48, 49]

/-- The spec's wording of the embedder's final conversion
("clip every pixel to [0, 255] and round to an integer sample"):
clip, then round to the nearest integer. Stated for comparison with the
code's truncation; `round` is ordinary rounding (half away from zero is
irrelevant at the counterexample, which has fractional part 3/5). -/
def embed_pixel_round_spec (orig bit : Nat) (s : ℚ) : Nat :=
  (round (rat_clip ((orig : ℚ) + (if bit = 1 then s else -s)))).toNat

/-- The spec's wording of `bits_to_payload` on a short input ("the missing
tail is treated as zero bits before packing", i.e. the result is the
32-byte packing of the sequence zero-extended to 256 bits). -/
def bits_to_payload_spec (bits : List Nat) : List Nat :=
  bits_to_payload (bits ++ List.replicate (256 - bits.length) 0)

/-! ### Payload and bit-packing lemmas -/

theorem create_payload_length (dev ses : List Nat) :
    (create_payload dev ses).length = 32 := by
  simp [create_payload]
  omega

theorem payload_to_bits_length (p : List Nat) :
    (payload_to_bits p).length = 8 * p.length := by
  induction p with
  | nil => simp [payload_to_bits]
  | cons b rest ih =>
      simp [payload_to_bits, List.flatMap_cons] at ih ⊢
      omega

theorem payload_bits_length (dev ses : List Nat) :
    (payload_bits dev ses).length = 256 := by
  simp [payload_bits, payload_to_bits_length, create_payload_length]

theorem payload_to_bits_mem (p : List Nat) :
    ∀ x ∈ payload_to_bits p, x = 0 ∨ x = 1 := by
  intro x hx
  simp only [payload_to_bits, List.mem_flatMap, List.mem_map] at hx
  obtain ⟨b, _, i, _, rfl⟩ := hx
  have : (b >>> i) &&& 1 ≤ 1 := Nat.and_le_right
  omega

theorem getD_append_left {l rest : List Nat} {j : Nat} (h : j < l.length) :
    (l ++ rest).getD j 0 = l.getD j 0 := by
  rw [List.getD_eq_getElem?_getD, List.getD_eq_getElem?_getD,
    List.getElem?_append_left h]

theorem getD_replicate_zero (k j : Nat) :
    (List.replicate k (0 : Nat)).getD j 0 = 0 := by
  rw [List.getD_eq_getElem?_getD, List.getElem?_replicate]
  by_cases h : j < k <;> simp [h]

theorem pack_byte_congr {l₁ l₂ : List Nat}
    (h : ∀ j < 8, l₁.getD j 0 = l₂.getD j 0) : pack_byte l₁ = pack_byte l₂ := by
  unfold pack_byte
  simp only [List.range_succ, List.range_zero, List.nil_append,
    List.foldl_append, List.foldl_cons, List.foldl_nil]
  rw [h 0 (by omega), h 1 (by omega), h 2 (by omega), h 3 (by omega),
    h 4 (by omega), h 5 (by omega), h 6 (by omega), h 7 (by omega)]

theorem pack_byte_append_of_length {l : List Nat} (rest : List Nat)
    (h : 8 ≤ l.length) : pack_byte (l ++ rest) = pack_byte l := by
  refine pack_byte_congr fun j hj => getD_append_left (by omega)

theorem pack_byte_append_replicate_zero (l : List Nat) (k : Nat) :
    pack_byte (l ++ List.replicate k 0) = pack_byte l := by
  refine pack_byte_congr fun j _ => ?_
  rcases Nat.lt_or_ge j l.length with h | h
  · exact getD_append_left h
  · rw [List.getD_eq_getElem?_getD, List.getD_eq_getElem?_getD,
      List.getElem?_append_right h, List.getElem?_replicate]
    by_cases hk : j - l.length < k <;>
      simp [hk, List.getElem?_eq_none, h]

set_option maxRecDepth 4096 in
theorem pack_byte_byte (b : Nat) (hb : b < 256) :
    pack_byte ((List.range 8).map (fun i => (b >>> i) &&& 1)) = b := by
  revert hb
  revert b
  decide

theorem payload_to_bits_cons (b : Nat) (p : List Nat) :
    payload_to_bits (b :: p) =
      (List.range 8).map (fun i => (b >>> i) &&& 1) ++ payload_to_bits p := by
  simp [payload_to_bits, List.flatMap_cons]

theorem payload_to_bits_drop (p : List Nat) (i : Nat) :
    (payload_to_bits p).drop (8 * i) = payload_to_bits (p.drop i) := by
  induction i generalizing p with
  | zero => simp
  | succ i ih =>
      cases p with
      | nil => simp [payload_to_bits]
      | cons b rest =>
          have h8 : 8 * (i + 1) = ((List.range 8).map
              (fun j => (b >>> j) &&& 1)).length + 8 * i := by simp; omega
          rw [payload_to_bits_cons, h8, List.drop_append, ih]
          simp

/-- Packing the bit expansion of a byte list recovers the list
(the core of the codec round-trip). -/
theorem bits_to_payload_payload_to_bits (p : List Nat) (hlen : p.length = 32)
    (hmem : ∀ b ∈ p, b < 256) :
    bits_to_payload (payload_to_bits p) = p := by
  have hbl : (payload_to_bits p).length = 256 := by
    rw [payload_to_bits_length, hlen]
  have htake : (payload_to_bits p).take 256 = payload_to_bits p :=
    List.take_of_length_le (by omega)
  unfold bits_to_payload
  rw [htake, hbl]
  refine List.ext_getElem (by simp [hlen]) ?_
  intro i h₁ h₂
  have hi : i < 32 := by simpa using h₁
  rw [List.getElem_map, List.getElem_range, payload_to_bits_drop]
  have hdrop : p.drop i = p[i] :: p.drop (i + 1) :=
    List.drop_eq_getElem_cons h₂
  rw [hdrop, payload_to_bits_cons,
    pack_byte_append_of_length _ (by simp),
    pack_byte_byte _ (hmem _ (List.getElem_mem h₂))]

/-! ### Clipping and integer-conversion lemmas -/

theorem rat_clip_nonneg (x : ℚ) : 0 ≤ rat_clip x := le_max_left _ _

theorem rat_clip_le (x : ℚ) : rat_clip x ≤ 255 :=
  max_le (by norm_num) (min_le_right _ _)

theorem rat_clip_eq_self {x : ℚ} (h0 : 0 ≤ x) (h255 : x ≤ 255) :
    rat_clip x = x := by
  unfold rat_clip
  rw [min_eq_left h255, max_eq_right h0]

theorem rat_to_uint8_le (x : ℚ) : rat_to_uint8 (rat_clip x) ≤ 255 := by
  unfold rat_to_uint8
  rw [Int.toNat_le]
  have h1 : ⌊rat_clip x⌋ ≤ ⌊(255 : ℚ)⌋ := Int.floor_le_floor (rat_clip_le x)
  have h2 : ⌊(255 : ℚ)⌋ = 255 := by
    have := Int.floor_intCast (α := ℚ) 255
    exact_mod_cast this
  omega

theorem rat_to_uint8_natCast (n : Nat) : rat_to_uint8 (n : ℚ) = n := by
  unfold rat_to_uint8
  rw [Int.floor_natCast]
  simp

theorem clip_uint8_natCast {n : Nat} (h : n ≤ 255) :
    rat_to_uint8 (rat_clip (n : ℚ)) = n := by
  rw [rat_clip_eq_self (by positivity) (by exact_mod_cast h), rat_to_uint8_natCast]

/-! ### Block geometry -/

theorem range_split (N k : Nat) (hk : k ≤ N) :
    List.range N = List.range k ++ List.range' k (N - k) := by
  rw [List.range_eq_range', List.range_eq_range']
  calc List.range' 0 N = List.range' 0 ((N - k) + k) := by
        rw [Nat.sub_add_cancel hk]
    _ = List.range' 0 k ++ List.range' (0 + 1 * k) (N - k) :=
        (List.range'_append 0 k (N - k) 1).symm
    _ = List.range' 0 k ++ List.range' k (N - k) := by norm_num

theorem range_flatMap_map {α : Type} (f : Nat → Nat → α) (m : Nat) :
    ∀ n : Nat, (List.range n).flatMap
        (fun bi => (List.range m).map (fun bj => f bi bj)) =
      (List.range (n * m)).map (fun k => f (k / m) (k % m)) := by
  intro n
  induction n with
  | zero => simp
  | succ n ih =>
      rw [List.range_succ, List.flatMap_append, ih]
      have hnm : (n + 1) * m = n * m + m := by ring
      have hsplit : List.range (n * m + m) =
          List.range (n * m) ++ List.range' (n * m) m := by
        have hsub : n * m + m - (n * m) = m := by omega
        have h := range_split (n * m + m) (n * m) (by omega)
        rw [hsub] at h
        exact h
      rw [hnm, hsplit, List.map_append]
      congr 1
      rw [List.range'_eq_map_range, List.map_map, List.flatMap_cons,
        List.flatMap_nil, List.append_nil]
      refine List.map_congr_left ?_
      intro bj hbj
      rw [List.mem_range] at hbj
      have hm : 0 < m := by omega
      have hdiv : (n * m + bj) / m = n := by
        rw [Nat.mul_comm n m, Nat.add_comm (m * n) bj,
          Nat.add_mul_div_left _ _ hm, Nat.div_eq_of_lt hbj, Nat.zero_add]
      have hmod : (n * m + bj) % m = bj := by
        rw [Nat.mul_comm n m, Nat.add_comm (m * n) bj,
          Nat.add_mul_mod_self_left, Nat.mod_eq_of_lt hbj]
      simp only [Function.comp_apply, hdiv, hmod]

theorem block_starts_eq (h w : Nat) :
    block_starts h w = (List.range ((h / 8) * (w / 8))).map
      (fun k => (8 * (k / (w / 8)), 8 * (k % (w / 8)))) :=
  range_flatMap_map (fun bi bj => (8 * bi, 8 * bj)) (w / 8) (h / 8)

theorem block_starts_length (h w : Nat) :
    (block_starts h w).length = (h / 8) * (w / 8) := by
  rw [block_starts_eq]
  simp

/-- A pixel `(r, c)` lies in the 8×8 block with corner `(8a, 8b)` exactly
when that block is the pixel's own block. -/
theorem touch_iff {a b r c : Nat} :
    (8 * a ≤ r ∧ r < 8 * a + 8 ∧ 8 * b ≤ c ∧ c < 8 * b + 8) ↔
      (r / 8 = a ∧ c / 8 = b) := by omega

/-! ### The embedding loop, pixel by pixel -/

theorem apply_blocks_untouched (bits : List Nat) (s : ℚ) (r c : Nat)
    (L : List (Nat × Nat)) :
    ∀ (k : Nat) (g : Nat → Nat → ℚ),
      (∀ p ∈ L, ¬(p.1 ≤ r ∧ r < p.1 + 8 ∧ p.2 ≤ c ∧ c < p.2 + 8)) →
      apply_blocks bits s L k g r c = g r c := by
  induction L with
  | nil => intro k g _; rfl
  | cons ij rest ih =>
      intro k g hL
      obtain ⟨i, j⟩ := ij
      rw [apply_blocks,
        ih (k + 1) _ (fun p hp => hL p (List.mem_cons_of_mem _ hp))]
      exact if_neg (hL (i, j) (List.mem_cons_self _ _))

theorem apply_blocks_at (bits : List Nat) (s : ℚ) (r c i j : Nat)
    (hij : i ≤ r ∧ r < i + 8 ∧ j ≤ c ∧ c < j + 8) (B : List (Nat × Nat))
    (hB : ∀ p ∈ B, ¬(p.1 ≤ r ∧ r < p.1 + 8 ∧ p.2 ≤ c ∧ c < p.2 + 8)) :
    ∀ (A : List (Nat × Nat))
      (_ : ∀ p ∈ A, ¬(p.1 ≤ r ∧ r < p.1 + 8 ∧ p.2 ≤ c ∧ c < p.2 + 8))
      (k : Nat) (g : Nat → Nat → ℚ),
      apply_blocks bits s (A ++ (i, j) :: B) k g r c =
        g r c + (if bits.getD ((k + A.length) % bits.length) 0 = 1
          then s else -s) := by
  intro A
  induction A with
  | nil =>
      intro _ k g
      rw [List.nil_append, apply_blocks,
        apply_blocks_untouched bits s r c B (k + 1) _ hB]
      rw [if_pos hij, List.length_nil, Nat.add_zero]
  | cons a A ih =>
      intro hA k g
      obtain ⟨i', j'⟩ := a
      rw [List.cons_append, apply_blocks,
        ih (fun p hp => hA p (List.mem_cons_of_mem _ hp)) (k + 1) _]
      rw [if_neg (hA (i', j') (List.mem_cons_self _ _))]
      have harith : k + 1 + A.length = k + ((i', j') :: A).length := by
        simp only [List.length_cons]
        omega
      rw [harith]

theorem apply_blocks_block_starts (bits : List Nat) (s : ℚ) (h w : Nat)
    (g : Nat → Nat → ℚ) (r c : Nat) (hr : r / 8 < h / 8)
    (hc : c / 8 < w / 8) :
    apply_blocks bits s (block_starts h w) 0 g r c =
      g r c + (if bits.getD (((r / 8) * (w / 8) + c / 8) % bits.length) 0 = 1
        then s else -s) := by
  have hm : 0 < w / 8 := by omega
  set n := h / 8 with hn
  set m := w / 8 with hmdef
  set a := r / 8 with ha
  set b := c / 8 with hb
  set k := a * m + b with hk
  have hkn : k < n * m := by
    have h1 : (a + 1) * m = a * m + m := by ring
    have h2 : (a + 1) * m ≤ n * m := Nat.mul_le_mul_right m (by omega)
    omega
  have hdivk : k / m = a := by
    rw [hk, Nat.mul_comm a m, Nat.add_comm (m * a) b,
      Nat.add_mul_div_left _ _ hm, Nat.div_eq_of_lt hc, Nat.zero_add]
  have hmodk : k % m = b := by
    rw [hk, Nat.mul_comm a m, Nat.add_comm (m * a) b,
      Nat.add_mul_mod_self_left, Nat.mod_eq_of_lt hc]
  have huniq : ∀ k' : Nat, k' < n * m →
      ((8 * (k' / m) ≤ r ∧ r < 8 * (k' / m) + 8 ∧
        8 * (k' % m) ≤ c ∧ c < 8 * (k' % m) + 8) → k' = k) := by
    intro k' _ htouch
    rw [touch_iff] at htouch
    have hdm : k' / m = a := htouch.1.symm
    have hem : k' % m = b := htouch.2.symm
    have hk' := Nat.div_add_mod k' m
    rw [hdm, hem] at hk'
    rw [hk, ← hk']
    ring
  have hsplit : List.range (n * m) =
      List.range k ++ k :: List.range' (k + 1) (n * m - (k + 1)) := by
    rw [range_split (n * m) k (le_of_lt hkn)]
    congr 1
    have hnk : n * m - k = (n * m - (k + 1)) + 1 := by omega
    rw [hnk, List.range'_succ]
  rw [block_starts_eq, ← hn, ← hmdef, hsplit, List.map_append, List.map_cons,
    hdivk, hmodk]
  rw [apply_blocks_at bits s r c (8 * a) (8 * b)
    (by rw [touch_iff]; exact ⟨rfl, rfl⟩)
    _ ?_ _ ?_ 0 g]
  · simp only [List.length_map, List.length_range, Nat.zero_add, hk]
  · intro p hp
    rw [List.mem_map] at hp
    obtain ⟨k', hk', rfl⟩ := hp
    rw [List.mem_range'] at hk'
    obtain ⟨idx, hidx, rfl⟩ := hk'
    simp only [Nat.one_mul]
    intro htouch
    have hlt : k + 1 + idx < n * m := by omega
    have := huniq (k + 1 + idx) hlt htouch
    omega
  · intro p hp
    rw [List.mem_map] at hp
    obtain ⟨k', hk', rfl⟩ := hp
    rw [List.mem_range] at hk'
    intro htouch
    have := huniq k' (by omega) htouch
    omega

/-- `embed` at a pixel inside a complete block: the pixel's block has
row-major index `(r/8)*(w/8) + c/8` and receives `±strength`. -/
theorem embed_apply_in (dev ses : List Nat) (h w : Nat)
    (img : Nat → Nat → Nat) (s : ℚ) (r c : Nat) (hr : r / 8 < h / 8)
    (hc : c / 8 < w / 8) :
    embed dev ses h w img s r c =
      rat_to_uint8 (rat_clip ((to_gray img r c : ℚ) +
        (if (payload_bits dev ses).getD (((r / 8) * (w / 8) + c / 8) % 256) 0 = 1
          then s else -s))) := by
  unfold embed
  rw [apply_blocks_block_starts _ _ _ _ _ _ _ hr hc, payload_bits_length]

/-- `embed` at a pixel outside every complete block: only the
`uint8` cast, clip and integer conversion apply, which leave the 8-bit
sample unchanged. -/
theorem embed_apply_out (dev ses : List Nat) (h w : Nat)
    (img : Nat → Nat → Nat) (s : ℚ) (r c : Nat)
    (hout : ¬(r / 8 < h / 8 ∧ c / 8 < w / 8)) :
    embed dev ses h w img s r c = to_gray img r c := by
  unfold embed
  rw [apply_blocks_untouched _ _ _ _ _ 0 _ ?_]
  · exact clip_uint8_natCast (by have := Nat.mod_lt (img r c) (show 0 < 256 by omega); unfold to_gray; omega)
  · intro p hp
    rw [block_starts_eq, List.mem_map] at hp
    obtain ⟨k', hk', rfl⟩ := hp
    rw [List.mem_range] at hk'
    intro htouch
    rw [touch_iff] at htouch
    have hm : 0 < w / 8 := by
      rcases Nat.eq_zero_or_pos (w / 8) with h0 | h0
      · rw [h0, Nat.mul_zero] at hk'; omega
      · exact h0
    have h1 : k' / (w / 8) < h / 8 := by
      rw [Nat.div_lt_iff_lt_mul hm]
      exact hk'
    have h2 : k' % (w / 8) < w / 8 := Nat.mod_lt _ hm
    rw [htouch.1, htouch.2] at hout
    exact hout ⟨h1, h2⟩

/-! ### The detector's two guarded loops as take-256 maps -/

theorem foldl_guard {α β : Type} (f : α → β) :
    ∀ (L : List α) (acc : List β), acc.length ≤ 256 →
      L.foldl (fun a x => if 256 ≤ a.length then a else a ++ [f x]) acc =
        (acc ++ L.map f).take 256 := by
  intro L
  induction L with
  | nil =>
      intro acc hacc
      rw [List.foldl_nil, List.map_nil, List.append_nil,
        List.take_of_length_le hacc]
  | cons x L ih =>
      intro acc hacc
      rw [List.foldl_cons]
      by_cases hl : 256 ≤ acc.length
      · rw [if_pos hl, ih acc hacc]
        have h256 : acc.length = 256 := by omega
        rw [List.take_left' h256, List.take_left' h256]
      · rw [if_neg hl,
          ih (acc ++ [f x]) (by rw [List.length_append]; simp; omega),
          List.map_cons, List.append_assoc, List.singleton_append]

theorem collect_means_eq (g : Nat → Nat → Nat) (h w : Nat) :
    collect_means g h w =
      ((block_starts h w).map (fun ij => block_mean g ij.1 ij.2)).take 256 := by
  unfold collect_means
  rw [foldl_guard (fun ij => block_mean g ij.1 ij.2) (block_starts h w) []
    (by simp), List.nil_append]

theorem extract_loop_eq (g : Nat → Nat → Nat) (h w : Nat) (thr : ℚ) :
    extract_loop g h w thr =
      ((block_starts h w).map
        (fun ij => if thr < block_mean g ij.1 ij.2 then (1 : Nat) else 0)).take 256 := by
  unfold extract_loop
  rw [foldl_guard (fun ij => if thr < block_mean g ij.1 ij.2 then (1 : Nat) else 0)
    (block_starts h w) [] (by simp), List.nil_append]

/-- The detector's bit sequence, in closed form: classify the first
(at most) 256 block means against the median of those same means, and pad
with zero bits up to length 256. -/
theorem extracted_bits_closed_form (h w : Nat) (img : Nat → Nat → Nat) :
    extracted_bits h w img =
      ((((block_starts h w).map
          (fun ij => block_mean (to_gray img) ij.1 ij.2)).take 256).map
        (fun m => if np_median (((block_starts h w).map
          (fun ij => block_mean (to_gray img) ij.1 ij.2)).take 256) < m
          then (1 : Nat) else 0)) ++
      List.replicate (256 - (((block_starts h w).map
          (fun ij => block_mean (to_gray img) ij.1 ij.2)).take 256).length) 0 := by
  simp only [extracted_bits]
  rw [collect_means_eq, extract_loop_eq, List.take_take]
  simp only [Nat.min_self]
  set ms := ((block_starts h w).map
    (fun ij => block_mean (to_gray img) ij.1 ij.2)).take 256 with hms
  have hmap : (block_starts h w).map
      (fun ij => if np_median ms < block_mean (to_gray img) ij.1 ij.2
        then (1 : Nat) else 0) =
      ((block_starts h w).map (fun ij => block_mean (to_gray img) ij.1 ij.2)).map
        (fun m => if np_median ms < m then (1 : Nat) else 0) := by
    rw [List.map_map]
    rfl
  rw [hmap, ← List.map_take, ← hms]
  have hlen : (ms.map (fun m => if np_median ms < m then (1 : Nat) else 0)).length
      = ms.length := List.length_map _ _
  have hmslen : ms.length ≤ 256 := by
    rw [hms, List.length_take]
    omega
  rw [hlen]
  refine List.take_of_length_le ?_
  rw [List.length_append, List.length_map, List.length_replicate]
  omega

theorem extracted_bits_length (h w : Nat) (img : Nat → Nat → Nat) :
    (extracted_bits h w img).length = 256 := by
  rw [extracted_bits_closed_form, List.length_append, List.length_map,
    List.length_replicate, List.length_take]
  have : ((block_starts h w).map
      (fun ij => block_mean (to_gray img) ij.1 ij.2)).length =
    (block_starts h w).length := List.length_map _ _
  omega

theorem extracted_bits_mem (h w : Nat) (img : Nat → Nat → Nat) :
    ∀ x ∈ extracted_bits h w img, x = 0 ∨ x = 1 := by
  intro x hx
  rw [extracted_bits_closed_form] at hx
  rcases List.mem_append.mp hx with hx | hx
  · rw [List.mem_map] at hx
    obtain ⟨m, _, rfl⟩ := hx
    by_cases hc : np_median (((block_starts h w).map
        (fun ij => block_mean (to_gray img) ij.1 ij.2)).take 256) < m <;>
      simp [hc]
  · left
    exact List.eq_of_mem_replicate hx

/-! ### Median lemmas -/

theorem length_eq_count_add_count {a b : ℚ} (hab : a ≠ b) (l : List ℚ)
    (hmem : ∀ x ∈ l, x = a ∨ x = b) :
    l.length = l.count a + l.count b := by
  induction l with
  | nil => simp
  | cons x t ih =>
      have ht := ih (fun y hy => hmem y (List.mem_cons_of_mem _ hy))
      rcases hmem x (List.mem_cons_self _ _) with rfl | rfl <;>
        · simp only [List.count_cons, List.length_cons, beq_iff_eq, ht]
          simp [hab, Ne.symm hab]
          omega

theorem sorted_two_valued {a b : ℚ} (hab : a < b) :
    ∀ l : List ℚ, l.Sorted (· ≤ ·) → (∀ x ∈ l, x = a ∨ x = b) →
      l = List.replicate (l.count a) a ++ List.replicate (l.count b) b := by
  intro l
  induction l with
  | nil => simp
  | cons x t ih =>
      intro hs hmem
      rw [List.sorted_cons] at hs
      have ht := ih hs.2 (fun y hy => hmem y (List.mem_cons_of_mem _ hy))
      rcases hmem x (List.mem_cons_self _ _) with rfl | rfl
      · have hca : (x :: t).count x = t.count x + 1 := by
          simp [List.count_cons]
        have hcb : (x :: t).count b = t.count b := by
          simp [List.count_cons, hab.ne]
        rw [hca, hcb, List.replicate_succ, List.cons_append]
        exact congrArg _ ht
      · have hall : ∀ y ∈ t, y = x := by
          intro y hy
          rcases hmem y (List.mem_cons_of_mem _ hy) with rfl | rfl
          · exact absurd (hs.1 y hy) (by exact not_le.mpr hab)
          · rfl
        have hca : (x :: t).count a = 0 := by
          rw [List.count_eq_zero]
          intro hmem'
          rcases List.mem_cons.mp hmem' with h | h
          · exact hab.ne h
          · exact hab.ne (hall a h)
        have hcb : (x :: t).count x = t.length + 1 := by
          rw [List.count_cons]
          simp only [beq_self_eq_true, if_true]
          congr 1
          calc t.count x = (List.replicate t.length x).count x := by
                rw [← List.eq_replicate_of_mem hall]
            _ = t.length := by simp [List.count_replicate]
        rw [hca, hcb, List.replicate_zero, List.nil_append,
          List.replicate_succ, List.eq_replicate_of_mem hall]
        rw [List.length_replicate]

theorem getD_replicate_append_left {a b : ℚ} {ca cb i : Nat} (hi : i < ca) :
    (List.replicate ca a ++ List.replicate cb b).getD i 0 = a := by
  rw [List.getD_eq_getElem _ _ (by simp; omega),
    List.getElem_append_left (by simp [hi])]
  exact List.getElem_replicate _ _

theorem getD_replicate_append_right {a b : ℚ} {ca cb i : Nat} (h1 : ca ≤ i)
    (h2 : i < ca + cb) :
    (List.replicate ca a ++ List.replicate cb b).getD i 0 = b := by
  rw [List.getD_eq_getElem _ _ (by simp; omega),
    List.getElem_append_right (by simp [h1])]
  exact List.getElem_replicate _ _

/-- The median of a nonempty two-valued population in which the smaller
value `a` occupies at least half of the entries lies in `[a, b)`:
every `b`-entry is strictly above it and no `a`-entry is. -/
theorem np_median_two_valued {a b : ℚ} {l : List ℚ} (hab : a < b)
    (hmem : ∀ x ∈ l, x = a ∨ x = b) (hcount : l.length ≤ 2 * l.count a)
    (hne : l ≠ []) : a ≤ np_median l ∧ np_median l < b := by
  have hperm := List.perm_insertionSort (· ≤ ·) l
  have hsorted := List.sorted_insertionSort (· ≤ ·) l
  have hsmem : ∀ x ∈ l.insertionSort (· ≤ ·), x = a ∨ x = b :=
    fun x hx => hmem x (hperm.mem_iff.mp hx)
  have hform := sorted_two_valued hab _ hsorted hsmem
  rw [hperm.count_eq a, hperm.count_eq b] at hform
  have hn : 0 < l.length := List.length_pos.mpr hne
  have hsum : l.length = l.count a + l.count b :=
    length_eq_count_add_count hab.ne l hmem
  unfold np_median
  rw [if_neg (by omega), hform]
  by_cases hpar : l.length % 2 = 1
  · rw [if_pos hpar, getD_replicate_append_left (by omega)]
    exact ⟨le_refl a, hab⟩
  · rw [if_neg hpar, getD_replicate_append_left (by omega)]
    by_cases hmid : l.length / 2 < l.count a
    · rw [getD_replicate_append_left hmid]
      constructor
      · linarith
      · linarith
    · rw [getD_replicate_append_right (by omega) (by omega)]
      constructor
      · linarith
      · linarith

/-- The median of a nonempty constant list is that constant. -/
theorem np_median_replicate {c : ℚ} {n : Nat} (hn : 0 < n) :
    np_median (List.replicate n c) = c := by
  have hperm := List.perm_insertionSort (· ≤ ·) (List.replicate n c)
  have hall : ∀ x ∈ (List.replicate n c).insertionSort (· ≤ ·), x = c :=
    fun x hx => List.eq_of_mem_replicate (hperm.mem_iff.mp hx)
  have hlen : ((List.replicate n c).insertionSort (· ≤ ·)).length = n := by
    rw [hperm.length_eq, List.length_replicate]
  have hform : (List.replicate n c).insertionSort (· ≤ ·) =
      List.replicate n c := by
    rw [List.eq_replicate_of_mem hall, hlen]
  unfold np_median
  rw [List.length_replicate, if_neg (by omega), hform]
  have hget : ∀ i : Nat, i < n → (List.replicate n c).getD i 0 = c := by
    intro i hi
    rw [List.getD_eq_getElem _ _ (by simp [hi])]
    exact List.getElem_replicate _ _
  by_cases hpar : n % 2 = 1
  · rw [if_pos hpar, hget _ (by omega)]
  · rw [if_neg hpar, hget _ (by omega), hget _ (by omega)]
    ring

/-! ### Degenerate and uniform images -/

set_option maxRecDepth 8192 in
theorem bits_to_payload_replicate_zero :
    bits_to_payload (List.replicate 256 0) = List.replicate 32 0 := by decide

theorem rstrip_zeros_replicate (n : Nat) :
    rstrip_zeros (List.replicate n 0) = [] := by
  unfold rstrip_zeros
  rw [List.reverse_replicate, List.dropWhile_replicate]
  simp

theorem calculate_confidence_replicate_zero :
    calculate_confidence (List.replicate 256 0) = 1 := by
  unfold calculate_confidence
  rw [if_neg (by rw [List.length_replicate]; omega)]
  have h0 : (List.replicate 256 (0 : Nat)).count 0 = 256 := by
    rw [List.count_replicate]
    norm_num
  have h1 : (List.replicate 256 (0 : Nat)).count 1 = 0 := by
    rw [List.count_replicate]
    norm_num
  rw [h0, h1, if_neg (by omega), h0, List.length_replicate]
  norm_num

/-- Whenever the extracted bit sequence is all zeros, `detect` reports the
all-zero payload, empty identifiers, confidence 1, and `found = false`. -/
theorem detect_of_extracted_zero (h w : Nat) (img : Nat → Nat → Nat)
    (hz : extracted_bits h w img = List.replicate 256 0) :
    detect h w img =
      { found := false
        device_id := []
        session_id := []
        confidence := 1
        payload := List.replicate 32 0 } := by
  simp only [detect]
  rw [hz, bits_to_payload_replicate_zero]
  have htake : (List.replicate 32 (0 : Nat)).take 16 = List.replicate 16 0 := by
    rw [List.take_replicate]
    norm_num
  have hdrop : ((List.replicate 32 (0 : Nat)).drop 16).take 16 =
      List.replicate 16 0 := by
    rw [List.drop_replicate, List.take_replicate]
    norm_num
  rw [htake, hdrop, rstrip_zeros_replicate, calculate_confidence_replicate_zero]
  have hfound : decide (0 < ([] : List Nat).length ∧ (1 : ℚ) / 2 < 1) = false := by
    simp
  rw [hfound]

theorem block_starts_nil {h w : Nat} (hw : h < 8 ∨ w < 8) :
    block_starts h w = [] := by
  rw [block_starts_eq]
  have hz : (h / 8) * (w / 8) = 0 := by
    rcases hw with h8 | h8
    · have : h / 8 = 0 := by omega
      rw [this, Nat.zero_mul]
    · have : w / 8 = 0 := by omega
      rw [this, Nat.mul_zero]
  rw [hz]
  rfl

theorem extracted_bits_of_no_blocks {h w : Nat} (img : Nat → Nat → Nat)
    (hb : block_starts h w = []) :
    extracted_bits h w img = List.replicate 256 0 := by
  rw [extracted_bits_closed_form, hb]
  simp only [List.map_nil, List.take_nil, List.length_nil, Nat.sub_zero,
    List.nil_append]

theorem block_mean_const {g : Nat → Nat → Nat} {v : Nat}
    (hg : ∀ r c, g r c = v) (i j : Nat) : block_mean g i j = v := by
  unfold block_mean
  have hmem : ∀ x ∈ (List.range 8).flatMap
      (fun r => (List.range 8).map (fun c => g (i + r) (j + c))), x = v := by
    intro x hx
    rw [List.mem_flatMap] at hx
    obtain ⟨r, _, hx⟩ := hx
    rw [List.mem_map] at hx
    obtain ⟨c, _, rfl⟩ := hx
    exact hg _ _
  have hlen : ((List.range 8).flatMap
      (fun r => (List.range 8).map (fun c => g (i + r) (j + c)))).length = 64 := by
    rw [List.length_flatMap]
    have h1 : List.length ∘ (fun r => (List.range 8).map
        (fun c => g (i + r) (j + c))) = fun _ => 8 := by
      funext r
      simp
    rw [h1]
    simp [List.range_succ]
  rw [List.eq_replicate_of_mem hmem, hlen, List.sum_replicate, smul_eq_mul]
  push_cast
  rw [mul_comm]
  exact mul_div_cancel_right₀ _ (by norm_num)

/-- A perfectly uniform image decodes to all-zero bits: every block mean
equals the median, and the strict comparison classifies every block 0. -/
theorem extracted_bits_const (h w v : Nat) :
    extracted_bits h w (fun _ _ => v) = List.replicate 256 0 := by
  by_cases hb : block_starts h w = []
  · exact extracted_bits_of_no_blocks _ hb
  · rw [extracted_bits_closed_form]
    have hmean : ∀ ij ∈ block_starts h w,
        block_mean (to_gray (fun _ _ => v)) ij.1 ij.2 = ((v % 256 : Nat) : ℚ) :=
      fun ij _ => block_mean_const (fun _ _ => rfl) ij.1 ij.2
    have hmap : (block_starts h w).map
        (fun ij => block_mean (to_gray (fun _ _ => v)) ij.1 ij.2) =
        List.replicate (block_starts h w).length ((v % 256 : Nat) : ℚ) := by
      have := List.eq_replicate_of_mem (l := (block_starts h w).map
        (fun ij => block_mean (to_gray (fun _ _ => v)) ij.1 ij.2))
        (a := ((v % 256 : Nat) : ℚ)) ?_
      · rw [this, List.length_map]
      · intro x hx
        rw [List.mem_map] at hx
        obtain ⟨ij, hij, rfl⟩ := hx
        exact hmean ij hij
    rw [hmap, List.take_replicate]
    set nb := min 256 (block_starts h w).length with hnb
    have hnbpos : 0 < nb := by
      have : 0 < (block_starts h w).length := List.length_pos.mpr hb
      omega
    rw [np_median_replicate hnbpos]
    have hclassify : (List.replicate nb ((v % 256 : Nat) : ℚ)).map
        (fun m => if ((v % 256 : Nat) : ℚ) < m then (1 : Nat) else 0) =
        List.replicate nb 0 := by
      rw [List.map_replicate, if_neg (lt_irrefl _)]
    rw [hclassify, List.length_replicate, ← List.replicate_add]
    congr 1
    omega

/-- C10's computation: a perfectly uniform image decodes to all-zero bits
with confidence 1 and `found = false`. -/
theorem detect_const (h w v : Nat) :
    detect h w (fun _ _ => v) =
      { found := false
        device_id := []
        session_id := []
        confidence := 1
        payload := List.replicate 32 0 } :=
  detect_of_extracted_zero h w _ (extracted_bits_const h w v)

/-! ### Embedding into a uniform image -/

theorem block_mean_window {g : Nat → Nat → Nat} {i j u : Nat}
    (hg : ∀ r c, r < 8 → c < 8 → g (i + r) (j + c) = u) :
    block_mean g i j = u := by
  unfold block_mean
  have hmem : ∀ x ∈ (List.range 8).flatMap
      (fun r => (List.range 8).map (fun c => g (i + r) (j + c))), x = u := by
    intro x hx
    rw [List.mem_flatMap] at hx
    obtain ⟨r, hr, hx⟩ := hx
    rw [List.mem_map] at hx
    obtain ⟨c, hc, rfl⟩ := hx
    exact hg r c (List.mem_range.mp hr) (List.mem_range.mp hc)
  have hlen : ((List.range 8).flatMap
      (fun r => (List.range 8).map (fun c => g (i + r) (j + c)))).length = 64 := by
    rw [List.length_flatMap]
    have h1 : List.length ∘ (fun r => (List.range 8).map
        (fun c => g (i + r) (j + c))) = fun _ => 8 := by
      funext r
      simp
    rw [h1]
    simp [List.range_succ]
  rw [List.eq_replicate_of_mem hmem, hlen, List.sum_replicate, smul_eq_mul]
  push_cast
  rw [mul_comm]
  exact mul_div_cancel_right₀ _ (by norm_num)

theorem embed_le_255 (dev ses : List Nat) (h w : Nat) (img : Nat → Nat → Nat)
    (s : ℚ) (r c : Nat) : embed dev ses h w img s r c ≤ 255 := by
  simp only [embed]
  exact rat_to_uint8_le _

theorem to_gray_embed (dev ses : List Nat) (h w : Nat) (img : Nat → Nat → Nat)
    (s : ℚ) : to_gray (embed dev ses h w img s) = embed dev ses h w img s := by
  funext r c
  unfold to_gray
  exact Nat.mod_eq_of_lt (by have := embed_le_255 dev ses h w img s r c; omega)

/-- Pixel values of `embed` on the uniform image of value `v`, inside a
complete block: `⌊v ± s⌋` according to the block's payload bit (no
clipping under the stated strength bounds). -/
theorem embed_const_in (dev ses : List Nat) (h w v : Nat) (s : ℚ)
    (hs0 : 0 ≤ s) (hsv : s ≤ (v : ℚ)) (hvs : (v : ℚ) + s ≤ 255) (r c : Nat)
    (hr : r / 8 < h / 8) (hc : c / 8 < w / 8) :
    embed dev ses h w (fun _ _ => v) s r c =
      if (payload_bits dev ses).getD (((r / 8) * (w / 8) + c / 8) % 256) 0 = 1
      then (⌊(v : ℚ) + s⌋).toNat else (⌊(v : ℚ) - s⌋).toNat := by
  have hv255 : v ≤ 255 := by
    have h1 : (v : ℚ) ≤ 255 := by linarith
    exact_mod_cast h1
  have hgray : to_gray (fun _ _ => v) r c = v := by
    show v % 256 = v
    omega
  rw [embed_apply_in dev ses h w (fun _ _ => v) s r c hr hc, hgray]
  by_cases hbit : (payload_bits dev ses).getD (((r / 8) * (w / 8) + c / 8) % 256) 0 = 1
  · rw [if_pos hbit, if_pos hbit,
      rat_clip_eq_self (by positivity) hvs]
    rfl
  · rw [if_neg hbit, if_neg hbit,
      rat_clip_eq_self (by linarith) (by linarith), ← sub_eq_add_neg]
    rfl

/-- The mean of a complete block of the uniform image's embedding is the
pixel value the block was given. -/
theorem block_mean_embed_const (dev ses : List Nat) (h w v : Nat) (s : ℚ)
    (hs0 : 0 ≤ s) (hsv : s ≤ (v : ℚ)) (hvs : (v : ℚ) + s ≤ 255)
    (bi bj : Nat) (hbi : bi < h / 8) (hbj : bj < w / 8) :
    block_mean (to_gray (embed dev ses h w (fun _ _ => v) s)) (8 * bi) (8 * bj) =
      ((if (payload_bits dev ses).getD ((bi * (w / 8) + bj) % 256) 0 = 1
        then (⌊(v : ℚ) + s⌋).toNat else (⌊(v : ℚ) - s⌋).toNat : Nat) : ℚ) := by
  rw [to_gray_embed]
  refine block_mean_window ?_
  intro r c hr hc
  have hdr : (8 * bi + r) / 8 = bi := by omega
  have hdc : (8 * bj + c) / 8 = bj := by omega
  rw [embed_const_in dev ses h w v s hs0 hsv hvs _ _ (by rw [hdr]; exact hbi)
    (by rw [hdc]; exact hbj), hdr, hdc]

/-- The two pixel values an embedded uniform image can take are strictly
ordered when the strength is at least one intensity step. -/
theorem embed_const_values_lt {v : Nat} {s : ℚ} (hs1 : 1 ≤ s)
    (hsv : s ≤ (v : ℚ)) :
    ((⌊(v : ℚ) - s⌋).toNat : ℚ) < ((⌊(v : ℚ) + s⌋).toNat : ℚ) := by
  have hfl : ⌊(v : ℚ) - s⌋ ≥ 0 := Int.floor_nonneg.mpr (by linarith)
  have hlt : ⌊(v : ℚ) - s⌋ < ⌊(v : ℚ) + s⌋ := by
    have h1 : (v : ℚ) - s ≤ ((v : ℚ) + s) - ((2 : ℤ) : ℚ) := by
      push_cast
      linarith
    have h2 := Int.floor_le_floor h1
    rw [Int.floor_sub_int] at h2
    omega
  have : (⌊(v : ℚ) - s⌋).toNat < (⌊(v : ℚ) + s⌋).toNat := by omega
  exact_mod_cast this

theorem means_embed_const (dev ses : List Nat) (h w v : Nat) (s : ℚ)
    (hs0 : 0 ≤ s) (hsv : s ≤ (v : ℚ)) (hvs : (v : ℚ) + s ≤ 255) :
    (block_starts h w).map
        (fun ij => block_mean (to_gray (embed dev ses h w (fun _ _ => v) s))
          ij.1 ij.2) =
      (List.range ((h / 8) * (w / 8))).map
        (fun k => ((if (payload_bits dev ses).getD (k % 256) 0 = 1
          then (⌊(v : ℚ) + s⌋).toNat else (⌊(v : ℚ) - s⌋).toNat : Nat) : ℚ)) := by
  rw [block_starts_eq, List.map_map]
  refine List.map_congr_left ?_
  intro k hk
  rw [List.mem_range] at hk
  have hm : 0 < w / 8 := by
    rcases Nat.eq_zero_or_pos (w / 8) with h0 | h0
    · rw [h0, Nat.mul_zero] at hk
      omega
    · exact h0
  have hbi : k / (w / 8) < h / 8 := (Nat.div_lt_iff_lt_mul hm).mpr hk
  have hbj : k % (w / 8) < w / 8 := Nat.mod_lt _ hm
  have hidx : (k / (w / 8)) * (w / 8) + k % (w / 8) = k := by
    rw [Nat.mul_comm]
    exact Nat.div_add_mod k (w / 8)
  simp only [Function.comp_apply]
  rw [block_mean_embed_const dev ses h w v s hs0 hsv hvs _ _ hbi hbj, hidx]

theorem count_map_two_valued (u0 u1 : Nat) (hne : u0 ≠ u1) :
    ∀ l : List Nat, (∀ x ∈ l, x = 0 ∨ x = 1) →
      (l.map (fun b => ((if b = 1 then u1 else u0 : Nat) : ℚ))).count
          ((u0 : Nat) : ℚ) = l.count 0 := by
  intro l
  induction l with
  | nil => simp
  | cons x t ih =>
      intro hmem
      have ht := ih (fun y hy => hmem y (List.mem_cons_of_mem _ hy))
      rcases hmem x (List.mem_cons_self _ _) with rfl | rfl
      · rw [List.map_cons, if_neg (by omega), List.count_cons, List.count_cons,
          ht]
        simp
      · rw [List.map_cons, if_pos rfl, List.count_cons, List.count_cons, ht]
        have hq : ((u1 : Nat) : ℚ) ≠ ((u0 : Nat) : ℚ) := by
          exact_mod_cast Ne.symm hne
        simp [hq]

theorem mem_map_two_valued (u0 u1 : Nat) (l : List Nat) :
    ∀ x ∈ l.map (fun b => ((if b = 1 then u1 else u0 : Nat) : ℚ)),
      x = ((u0 : Nat) : ℚ) ∨ x = ((u1 : Nat) : ℚ) := by
  intro x hx
  rw [List.mem_map] at hx
  obtain ⟨b, _, rfl⟩ := hx
  by_cases hb : b = 1
  · right
    rw [if_pos hb]
  · left
    rw [if_neg hb]

theorem mem_take_of_mem {α : Type} {x : α} {n : Nat} {l : List α}
    (hx : x ∈ l.take n) : x ∈ l := List.take_subset n l hx

theorem range_map_getD {l : List Nat} {n' : Nat} (hn : n' ≤ l.length)
    (f : Nat → ℚ) :
    (List.range n').map (fun k => f (l.getD k 0)) = (l.take n').map f := by
  refine List.ext_getElem (by simp [List.length_take]; omega) ?_
  intro i h1 h2
  have hilen : i < l.length := by
    rw [List.length_map, List.length_range] at h1
    omega
  rw [List.getElem_map, List.getElem_range, List.getElem_map, List.getElem_take,
    List.getD_eq_getElem l 0 hilen]

/-- The detector's bit sequence for a uniform image embedded with strength
`1 ≤ s ≤ v`, `v + s ≤ 255`: when zero bits fill at least half of the
scanned prefix of the payload bit sequence, every scanned block is
classified back to its own payload bit, and the remainder is zero-padded. -/
theorem extracted_bits_embed_const (dev ses : List Nat) (h w v : Nat) (s : ℚ)
    (hs1 : 1 ≤ s) (hsv : s ≤ (v : ℚ)) (hvs : (v : ℚ) + s ≤ 255)
    (hpos : 0 < (h / 8) * (w / 8))
    (hcount : min 256 ((h / 8) * (w / 8)) ≤
      2 * (((payload_bits dev ses).take
        (min 256 ((h / 8) * (w / 8)))).count 0)) :
    extracted_bits h w (embed dev ses h w (fun _ _ => v) s) =
      (payload_bits dev ses).take (min 256 ((h / 8) * (w / 8))) ++
        List.replicate (256 - min 256 ((h / 8) * (w / 8))) 0 := by
  have hs0 : (0 : ℚ) ≤ s := by linarith
  have hu01 := embed_const_values_lt hs1 hsv
  rw [extracted_bits_closed_form,
    means_embed_const dev ses h w v s hs0 hsv hvs, ← List.map_take,
    List.take_range]
  set u1 := (⌊(v : ℚ) + s⌋).toNat with hu1def
  set u0 := (⌊(v : ℚ) - s⌋).toNat with hu0def
  set pb := payload_bits dev ses with hpbdef
  set n' := min 256 ((h / 8) * (w / 8)) with hn'def
  have hne : u0 ≠ u1 := by
    intro heq
    rw [heq] at hu01
    exact lt_irrefl _ hu01
  have hmod : (List.range n').map
      (fun k => ((if pb.getD (k % 256) 0 = 1 then u1 else u0 : Nat) : ℚ)) =
      (List.range n').map
      (fun k => ((if pb.getD k 0 = 1 then u1 else u0 : Nat) : ℚ)) := by
    refine List.map_congr_left ?_
    intro k hk
    rw [List.mem_range] at hk
    rw [Nat.mod_eq_of_lt (by omega)]
  have hpble : n' ≤ pb.length := by
    rw [hpbdef, payload_bits_length]
    omega
  rw [hmod, range_map_getD (l := pb) hpble
    (fun b => ((if b = 1 then u1 else u0 : Nat) : ℚ))]
  have hdigits : ∀ x ∈ pb.take n', x = 0 ∨ x = 1 := fun x hx =>
    payload_to_bits_mem (create_payload dev ses) x (List.take_subset _ _ hx)
  have hlen : ((pb.take n').map
      (fun b => ((if b = 1 then u1 else u0 : Nat) : ℚ))).length = n' := by
    rw [List.length_map, List.length_take]
    omega
  have hcnt : ((pb.take n').map
      (fun b => ((if b = 1 then u1 else u0 : Nat) : ℚ))).count ((u0 : Nat) : ℚ) =
      (pb.take n').count 0 := count_map_two_valued u0 u1 hne _ hdigits
  have hmed := np_median_two_valued (l := (pb.take n').map
      (fun b => ((if b = 1 then u1 else u0 : Nat) : ℚ))) hu01
    (mem_map_two_valued u0 u1 _) (by rw [hlen, hcnt]; exact hcount)
    (by
      intro hnil
      have := hlen
      rw [hnil] at this
      simp at this
      omega)
  have hclass : ((pb.take n').map
      (fun b => ((if b = 1 then u1 else u0 : Nat) : ℚ))).map
      (fun m => if np_median ((pb.take n').map
        (fun b => ((if b = 1 then u1 else u0 : Nat) : ℚ))) < m
        then (1 : Nat) else 0) = pb.take n' := by
    rw [List.map_map]
    refine (List.map_congr_left ?_).trans (List.map_id' _)
    intro b hb
    rcases hdigits b hb with rfl | rfl
    · show (if np_median ((pb.take n').map
          (fun b => ((if b = 1 then u1 else u0 : Nat) : ℚ))) <
          ((if (0 : Nat) = 1 then u1 else u0 : Nat) : ℚ) then (1 : Nat) else 0) = 0
      rw [if_neg (by omega : ¬(0 : Nat) = 1), if_neg (not_lt.mpr hmed.1)]
    · show (if np_median ((pb.take n').map
          (fun b => ((if b = 1 then u1 else u0 : Nat) : ℚ))) <
          ((if (1 : Nat) = 1 then u1 else u0 : Nat) : ℚ) then (1 : Nat) else 0) = 1
      rw [if_pos (rfl : (1 : Nat) = 1), if_pos hmed.2]
  rw [hclass, hlen]

/-! ### Parsing the payload back into identifiers -/

theorem create_payload_mem {dev ses : List Nat} (hdev : ∀ b ∈ dev, b < 256)
    (hses : ∀ b ∈ ses, b < 256) : ∀ b ∈ create_payload dev ses, b < 256 := by
  intro b hb
  unfold create_payload at hb
  rcases List.mem_append.mp hb with hb | hb <;>
    rcases List.mem_append.mp hb with hb | hb
  · exact hdev b (List.take_subset _ _ hb)
  · rw [List.eq_of_mem_replicate hb]
    omega
  · exact hses b (List.take_subset _ _ hb)
  · rw [List.eq_of_mem_replicate hb]
    omega

theorem create_payload_take16 {dev : List Nat} (ses : List Nat)
    (hdev : dev.length ≤ 16) :
    (create_payload dev ses).take 16 = dev ++ List.replicate (16 - dev.length) 0 := by
  unfold create_payload
  rw [List.take_of_length_le hdev, List.take_left' ?_]
  rw [List.length_append, List.length_replicate]
  omega

theorem create_payload_drop16_take16 {dev ses : List Nat}
    (hses : ses.length ≤ 16) :
    ((create_payload dev ses).drop 16).take 16 =
      ses ++ List.replicate (16 - ses.length) 0 := by
  unfold create_payload
  rw [List.take_of_length_le hses]
  have hlen : (dev.take 16 ++
      List.replicate (16 - (dev.take 16).length) 0).length = 16 := by
    rw [List.length_append, List.length_replicate, List.length_take]
    omega
  rw [List.drop_left' hlen]
  refine List.take_of_length_le ?_
  rw [List.length_append, List.length_replicate]
  omega

theorem rstrip_zeros_append_replicate (l : List Nat) (k : Nat) :
    rstrip_zeros (l ++ List.replicate k 0) = rstrip_zeros l := by
  unfold rstrip_zeros
  rw [List.reverse_append, List.reverse_replicate, List.dropWhile_append,
    List.dropWhile_replicate]
  simp

theorem rstrip_zeros_no_trailing {l : List Nat} (hl : l.getLast? ≠ some 0) :
    rstrip_zeros l = l := by
  unfold rstrip_zeros
  cases hrev : l.reverse with
  | nil =>
      rw [List.dropWhile_nil, ← hrev, List.reverse_reverse]
  | cons x t =>
      have hx : x ≠ 0 := by
        have hlast : l.getLast? = some x := by
          rw [← List.head?_reverse, hrev]
          rfl
        intro h0
        rw [h0] at hlast
        exact hl hlast
      rw [List.dropWhile_cons, if_neg (by simp [hx]), ← hrev,
        List.reverse_reverse]

theorem parse_device (dev ses : List Nat) (hdev : dev.length ≤ 16)
    (hlast : dev.getLast? ≠ some 0) :
    rstrip_zeros ((create_payload dev ses).take 16) = dev := by
  rw [create_payload_take16 ses hdev, rstrip_zeros_append_replicate,
    rstrip_zeros_no_trailing hlast]

theorem parse_session (dev ses : List Nat) (hses : ses.length ≤ 16)
    (hlast : ses.getLast? ≠ some 0) :
    rstrip_zeros (((create_payload dev ses).drop 16).take 16) = ses := by
  rw [create_payload_drop16_take16 hses, rstrip_zeros_append_replicate,
    rstrip_zeros_no_trailing hlast]

/-- The detector applied to an embedded uniform image with at least 256
complete blocks recovers the exact payload. -/
theorem detect_embed_const_payload (dev ses : List Nat) (h w v : Nat) (s : ℚ)
    (hs1 : 1 ≤ s) (hsv : s ≤ (v : ℚ)) (hvs : (v : ℚ) + s ≤ 255)
    (hblocks : 256 ≤ (h / 8) * (w / 8))
    (hdev256 : ∀ b ∈ dev, b < 256) (hses256 : ∀ b ∈ ses, b < 256)
    (hcount : 256 ≤ 2 * ((payload_bits dev ses).count 0)) :
    (detect h w (embed dev ses h w (fun _ _ => v) s)).payload =
      create_payload dev ses ∧
    (detect h w (embed dev ses h w (fun _ _ => v) s)).device_id =
      rstrip_zeros ((create_payload dev ses).take 16) ∧
    (detect h w (embed dev ses h w (fun _ _ => v) s)).session_id =
      rstrip_zeros (((create_payload dev ses).drop 16).take 16) := by
  have hmin : min 256 ((h / 8) * (w / 8)) = 256 := by omega
  have htake : (payload_bits dev ses).take
      (min 256 ((h / 8) * (w / 8))) = payload_bits dev ses := by
    rw [hmin]
    exact List.take_of_length_le (by rw [payload_bits_length])
  have hbits := extracted_bits_embed_const dev ses h w v s hs1 hsv hvs
    (by omega) (by rw [htake, hmin]; exact hcount)
  rw [htake, hmin, Nat.sub_self, List.replicate_zero, List.append_nil] at hbits
  have hpayload : bits_to_payload (payload_bits dev ses) =
      create_payload dev ses :=
    bits_to_payload_payload_to_bits _ (create_payload_length dev ses)
      (create_payload_mem hdev256 hses256)
  simp only [detect]
  rw [hbits, hpayload]
  exact ⟨rfl, rfl, rfl⟩

/-! ### Confidence lemmas -/

theorem count01_length : ∀ l : List Nat, (∀ x ∈ l, x = 0 ∨ x = 1) →
    l.length = l.count 0 + l.count 1 := by
  intro l
  induction l with
  | nil => simp
  | cons x t ih =>
      intro hmem
      have ht := ih (fun y hy => hmem y (List.mem_cons_of_mem _ hy))
      rcases hmem x (List.mem_cons_self _ _) with rfl | rfl <;>
        · simp only [List.count_cons, List.length_cons, beq_iff_eq, ht]
          norm_num
          omega

theorem confidence_ge_half {l : List Nat} (hmem : ∀ x ∈ l, x = 0 ∨ x = 1)
    (hlen : l.length = 256) : 1 / 2 ≤ calculate_confidence l := by
  have hsum := count01_length l hmem
  unfold calculate_confidence
  rw [if_neg (by omega), hlen]
  by_cases hc : l.count 0 < l.count 1
  · rw [if_pos hc]
    have h128 : (128 : Nat) ≤ l.count 1 := by omega
    rw [le_div_iff₀ (by norm_num)]
    have hq : (128 : ℚ) ≤ ((l.count 1 : Nat) : ℚ) := by exact_mod_cast h128
    push_cast
    push_cast at hq
    linarith
  · rw [if_neg hc]
    have h128 : (128 : Nat) ≤ l.count 0 := by omega
    rw [le_div_iff₀ (by norm_num)]
    have hq : (128 : ℚ) ≤ ((l.count 0 : Nat) : ℚ) := by exact_mod_cast h128
    push_cast
    push_cast at hq
    linarith

theorem confidence_tie {l : List Nat} (hmem : ∀ x ∈ l, x = 0 ∨ x = 1)
    (hlen : l.length = 256) (htie : l.count 1 = 128) :
    calculate_confidence l = 1 / 2 := by
  have hsum := count01_length l hmem
  have hc0 : l.count 0 = 128 := by omega
  have hcond : ¬(l.count 0 < l.count 1) := by omega
  unfold calculate_confidence
  rw [if_neg (by omega), if_neg hcond, hc0, hlen]
  norm_num

/-! ### Claim theorems -/

/-- C3: for every 32-byte payload `p`, converting `p` to its 256-bit
LSB-first sequence and packing that sequence back yields `p` exactly:
`bits_to_payload(payload_to_bits(p)) = p`. -/
theorem C3_payload_roundtrip (p : List Nat) (hlen : p.length = 32)
    (hmem : ∀ b ∈ p, b < 256) : bits_to_payload (payload_to_bits p) = p :=
  bits_to_payload_payload_to_bits p hlen hmem

theorem C3_payload_roundtrip_witness :
    (List.range 32).length = 32 ∧ (∀ b ∈ List.range 32, b < 256) ∧
    bits_to_payload (payload_to_bits (List.range 32)) = List.range 32 :=
  ⟨by decide, by decide, C3_payload_roundtrip (List.range 32) (by decide)
    (by decide)⟩

/-- C5: the detector collects the arithmetic mean of (up to) the first 256
complete 8×8 blocks in row-major order, takes the median of those means as
the global threshold, classifies block `k` as bit 1 exactly when its mean
strictly exceeds the threshold, and pads with zero bits to an ordered
256-bit sequence when fewer than 256 blocks exist. -/
theorem C5_median_threshold_classification (h w : Nat)
    (img : Nat → Nat → Nat) :
    extracted_bits h w img =
      (fun ms => ms.map (fun m => if np_median ms < m then (1 : Nat) else 0) ++
        List.replicate (256 - ms.length) 0)
      (((block_starts h w).map
        (fun ij => block_mean (to_gray img) ij.1 ij.2)).take 256) :=
  extracted_bits_closed_form h w img

/-- C7: every sample of `embed`'s output lies within [0, 255], for every
input image (including images with samples at 0 or 255) and every
strength. -/
theorem C7_embed_output_in_range (dev ses : List Nat) (h w : Nat)
    (img : Nat → Nat → Nat) (s : ℚ) (r c : Nat) :
    0 ≤ embed dev ses h w img s r c ∧ embed dev ses h w img s r c ≤ 255 :=
  ⟨Nat.zero_le _, embed_le_255 dev ses h w img s r c⟩

/-- C8: for every image with `H < 8` or `W < 8` the detector returns (with
no error path: `detect` is total) an all-zero 256-bit sequence, a payload
of 32 zero bytes, empty identifiers and `found = false`. -/
theorem C8_small_image (h w : Nat) (img : Nat → Nat → Nat)
    (hsmall : h < 8 ∨ w < 8) :
    extracted_bits h w img = List.replicate 256 0 ∧
    detect h w img =
      { found := false
        device_id := []
        session_id := []
        confidence := 1
        payload := List.replicate 32 0 } := by
  have hz := extracted_bits_of_no_blocks img (block_starts_nil hsmall)
  exact ⟨hz, detect_of_extracted_zero h w img hz⟩

theorem C8_small_image_witness :
    ((7 : Nat) < 8 ∨ (7 : Nat) < 8) ∧
    (extracted_bits 7 7 (fun r c => r * 7 + c) = List.replicate 256 0 ∧
    detect 7 7 (fun r c => r * 7 + c) =
      { found := false
        device_id := []
        session_id := []
        confidence := 1
        payload := List.replicate 32 0 }) :=
  ⟨Or.inl (by decide), C8_small_image 7 7 (fun r c => r * 7 + c)
    (Or.inl (by decide))⟩

/-- C10: a perfectly uniform image of any size decodes with every block
mean equal to the median threshold, so the strict comparison classifies
every block as bit 0: the result is the all-zero payload, empty
identifiers, confidence 1 and `found = false`. -/
theorem C10_uniform_image (h w v : Nat) (img : Nat → Nat → Nat)
    (huni : ∀ r c, img r c = v) :
    extracted_bits h w img = List.replicate 256 0 ∧
    detect h w img =
      { found := false
        device_id := []
        session_id := []
        confidence := 1
        payload := List.replicate 32 0 } := by
  have himg : img = fun _ _ => v := funext fun r => funext fun c => huni r c
  rw [himg]
  exact ⟨extracted_bits_const h w v, detect_const h w v⟩

theorem C10_uniform_image_witness :
    (∀ r c : Nat, (fun _ _ : Nat => (200 : Nat)) r c = 200) ∧
    (extracted_bits 24 40 (fun _ _ => 200) = List.replicate 256 0 ∧
    detect 24 40 (fun _ _ => 200) =
      { found := false
        device_id := []
        session_id := []
        confidence := 1
        payload := List.replicate 32 0 }) :=
  ⟨fun _ _ => rfl, C10_uniform_image 24 40 200 (fun _ _ => 200)
    (fun _ _ => rfl)⟩

/-- C9: the detector's confidence is always at least 1/2 (it is the
fraction of the 256 bits equal to the majority bit value), and on an exact
128/128 tie the majority is resolved to bit 0, the confidence is exactly
1/2, and `found` is false. -/
theorem C9_confidence_at_least_half (h w : Nat) (img : Nat → Nat → Nat) :
    1 / 2 ≤ (detect h w img).confidence ∧
    ((extracted_bits h w img).count 1 = 128 →
      (detect h w img).confidence = 1 / 2 ∧ (detect h w img).found = false) := by
  have hconf : (detect h w img).confidence =
      calculate_confidence (extracted_bits h w img) := by
    simp only [detect]
  have hmem := extracted_bits_mem h w img
  have hlen := extracted_bits_length h w img
  constructor
  · rw [hconf]
    exact confidence_ge_half hmem hlen
  · intro htie
    have h12 := confidence_tie hmem hlen htie
    refine ⟨by rw [hconf, h12], ?_⟩
    simp only [detect]
    refine decide_eq_false ?_
    rintro ⟨_, hlt⟩
    rw [h12] at hlt
    exact lt_irrefl _ hlt

set_option maxRecDepth 100000 in
theorem C9_confidence_at_least_half_witness :
    (extracted_bits 128 128 (embed (List.replicate 16 15)
      (List.replicate 16 15) 128 128 (fun _ _ => 128) 1)).count 1 = 128 ∧
    ((detect 128 128 (embed (List.replicate 16 15) (List.replicate 16 15)
        128 128 (fun _ _ => 128) 1)).confidence = 1 / 2 ∧
      (detect 128 128 (embed (List.replicate 16 15) (List.replicate 16 15)
        128 128 (fun _ _ => 128) 1)).found = false) ∧
    1 / 2 ≤ (detect 128 128 (embed (List.replicate 16 15)
      (List.replicate 16 15) 128 128 (fun _ _ => 128) 1)).confidence := by
  have hbits := extracted_bits_embed_const (List.replicate 16 15)
    (List.replicate 16 15) 128 128 128 1 (le_refl 1) (by norm_num)
    (by norm_num) (by decide) (by decide)
  have htie : (extracted_bits 128 128 (embed (List.replicate 16 15)
      (List.replicate 16 15) 128 128 (fun _ _ => 128) 1)).count 1 = 128 := by
    rw [hbits]
    decide
  exact ⟨htie, (C9_confidence_at_least_half 128 128 _).2 htie,
    (C9_confidence_at_least_half 128 128 _).1⟩

/-- C6 (amended): `embed` scans complete 8×8 blocks in row-major order;
a pixel inside the complete block of row-major index
`k = (r/8)*(W/8) + c/8` receives `+strength` when bit `k mod 256` is 1 and
`-strength` otherwise, after which the sample is clipped to [0, 255] and
truncated (floored) — not rounded — to an integer; pixels outside every
complete block pass through unchanged. The model is purely functional, so
the source grid is never mutated. -/
theorem C6_embed_per_pixel (dev ses : List Nat) (h w : Nat)
    (img : Nat → Nat → Nat) (s : ℚ) (r c : Nat) :
    embed dev ses h w img s r c =
      if r / 8 < h / 8 ∧ c / 8 < w / 8 then
        rat_to_uint8 (rat_clip ((to_gray img r c : ℚ) +
          (if (payload_bits dev ses).getD
              (((r / 8) * (w / 8) + c / 8) % 256) 0 = 1 then s else -s)))
      else to_gray img r c := by
  by_cases hin : r / 8 < h / 8 ∧ c / 8 < w / 8
  · rw [if_pos hin]
    exact embed_apply_in dev ses h w img s r c hin.1 hin.2
  · rw [if_neg hin]
    exact embed_apply_out dev ses h w img s r c hin

/-- C6's counterexample to the claim as stated: with strength 3/5 on a
uniform 127 image whose first payload bit is 1 (device byte 65), the code
truncates 127.6 to 127, while the claim's "round to an integer sample"
yields 128. -/
theorem C6_counterexample :
    embed [65] [] 8 8 (fun _ _ => 127) (3 / 5) 0 0 = 127 ∧
    embed_pixel_round_spec 127 1 (3 / 5) = 128 ∧
    embed [65] [] 8 8 (fun _ _ => 127) (3 / 5) 0 0 ≠
      embed_pixel_round_spec 127 1 (3 / 5) := by
  have h1 : embed [65] [] 8 8 (fun _ _ => 127) (3 / 5) 0 0 = 127 := by
    rw [embed_apply_in [65] [] 8 8 (fun _ _ => 127) (3 / 5) 0 0 (by decide)
      (by decide)]
    have hbit : (payload_bits [65] []).getD
        (((0 / 8) * (8 / 8) + 0 / 8) % 256) 0 = 1 := by decide
    rw [if_pos hbit]
    have hg : to_gray (fun _ _ => (127 : Nat)) 0 0 = 127 := by decide
    rw [hg, rat_clip_eq_self (by norm_num) (by norm_num)]
    unfold rat_to_uint8
    have hfl : ⌊((127 : Nat) : ℚ) + 3 / 5⌋ = 127 := by
      rw [Int.floor_eq_iff]
      constructor <;> norm_num
    rw [hfl]
    rfl
  have h2 : embed_pixel_round_spec 127 1 (3 / 5) = 128 := by
    unfold embed_pixel_round_spec
    rw [if_pos (rfl : (1 : Nat) = 1),
      rat_clip_eq_self (by norm_num) (by norm_num), round_eq]
    have hfl : ⌊((127 : Nat) : ℚ) + 3 / 5 + 1 / 2⌋ = 128 := by
      rw [Int.floor_eq_iff]
      constructor <;> norm_num
    rw [hfl]
    rfl
  refine ⟨h1, h2, ?_⟩
  rw [h1, h2]
  omega

/-- C4's counterexample to the claim as stated: on the 1-bit input `[1]`
the code returns a single byte, not a 32-byte payload. -/
theorem C4_counterexample : (bits_to_payload [1]).length ≠ 32 := by decide

/-- C4 (amended): on fewer than 256 bits, `bits_to_payload` returns
`⌈n/8⌉` bytes (not 32); within the final partial byte the missing bits are
treated as zero, so the result equals the corresponding prefix of packing
the sequence zero-extended to 256 bits. -/
theorem C4_short_input_packs_zero_tail (bits : List Nat)
    (hlen : bits.length < 256) :
    (bits_to_payload bits).length = (bits.length + 7) / 8 ∧
    bits_to_payload bits =
      (bits_to_payload_spec bits).take ((bits.length + 7) / 8) := by
  have htake : bits.take 256 = bits := List.take_of_length_le (by omega)
  constructor
  · unfold bits_to_payload
    rw [htake, List.length_map, List.length_range]
  · unfold bits_to_payload_spec bits_to_payload
    rw [htake]
    have hext : (bits ++ List.replicate (256 - bits.length) 0).take 256 =
        bits ++ List.replicate (256 - bits.length) 0 :=
      List.take_of_length_le
        (by rw [List.length_append, List.length_replicate]; omega)
    rw [hext, List.length_append, List.length_replicate]
    have h256 : (bits.length + (256 - bits.length) + 7) / 8 = 32 := by omega
    rw [h256, ← List.map_take, List.take_range]
    have hmin : (bits.length + 7) / 8 ⊓ 32 = (bits.length + 7) / 8 := by omega
    rw [hmin]
    refine List.map_congr_left ?_
    intro i hi
    rw [List.mem_range] at hi
    have h8i : 8 * i ≤ bits.length := by omega
    rw [List.drop_append_of_le_length h8i, pack_byte_append_replicate_zero]

theorem C4_short_input_packs_zero_tail_witness :
    ([1, 0, 1] : List Nat).length < 256 ∧
    ((bits_to_payload [1, 0, 1]).length = (([1, 0, 1] : List Nat).length + 7) / 8 ∧
    bits_to_payload [1, 0, 1] =
      (bits_to_payload_spec [1, 0, 1]).take
        ((([1, 0, 1] : List Nat).length + 7) / 8)) :=
  ⟨by decide, C4_short_input_packs_zero_tail [1, 0, 1] (by decide)⟩

set_option maxRecDepth 100000 in
/-- C1's counterexample to the claim as stated: a 16×16 uniform gray image
satisfies every stated hypothesis (identifiers of at most 16 UTF-8 bytes,
H and W at least 8 and divisible by 8, strength 1, no pre-existing 8×8
brightness pattern), yet the 4 available blocks can hold only the first 4
of the 256 payload bits, so the decoded device identifier is not
recovered. -/
theorem C1_counterexample :
    (detect 16 16 (embed device001 session001 16 16
      (fun _ _ => 128) 1)).device_id ≠ device001 := by
  have hbits := extracted_bits_embed_const device001 session001 16 16 128 1
    (le_refl 1) (by norm_num) (by norm_num) (by decide) (by decide)
  simp only [detect]
  rw [hbits]
  decide

/-- C1 (amended): the round trip holds once the image actually carries the
whole payload: for a uniform image with at least 256 complete blocks,
identifiers of at most 16 bytes without a trailing zero byte, strength
`1 ≤ s ≤ v` with `v + s ≤ 255`, and a payload bit sequence that is at most
half ones, detection recovers both identifiers exactly. -/
theorem C1_roundtrip_uniform (dev ses : List Nat) (h w v : Nat) (s : ℚ)
    (hdev16 : dev.length ≤ 16) (hses16 : ses.length ≤ 16)
    (hdev256 : ∀ b ∈ dev, b < 256) (hses256 : ∀ b ∈ ses, b < 256)
    (hdevlast : dev.getLast? ≠ some 0) (hseslast : ses.getLast? ≠ some 0)
    (hblocks : 256 ≤ (h / 8) * (w / 8)) (hs1 : 1 ≤ s) (hsv : s ≤ (v : ℚ))
    (hvs : (v : ℚ) + s ≤ 255)
    (hzeros : 256 ≤ 2 * (payload_bits dev ses).count 0) :
    (detect h w (embed dev ses h w (fun _ _ => v) s)).device_id = dev ∧
    (detect h w (embed dev ses h w (fun _ _ => v) s)).session_id = ses := by
  obtain ⟨_, hd, hs'⟩ := detect_embed_const_payload dev ses h w v s hs1 hsv
    hvs hblocks hdev256 hses256 hzeros
  rw [hd, hs']
  exact ⟨parse_device dev ses hdev16 hdevlast,
    parse_session dev ses hses16 hseslast⟩

set_option maxRecDepth 100000 in
theorem C1_roundtrip_uniform_witness :
    device001.length ≤ 16 ∧ session001.length ≤ 16 ∧
    (∀ b ∈ device001, b < 256) ∧ (∀ b ∈ session001, b < 256) ∧
    device001.getLast? ≠ some 0 ∧ session001.getLast? ≠ some 0 ∧
    256 ≤ ((128 : Nat) / 8) * ((128 : Nat) / 8) ∧ (1 : ℚ) ≤ 1 ∧
    (1 : ℚ) ≤ ((128 : Nat) : ℚ) ∧ ((128 : Nat) : ℚ) + 1 ≤ 255 ∧
    256 ≤ 2 * (payload_bits device001 session001).count 0 ∧
    ((detect 128 128 (embed device001 session001 128 128
        (fun _ _ => 128) 1)).device_id = device001 ∧
      (detect 128 128 (embed device001 session001 128 128
        (fun _ _ => 128) 1)).session_id = session001) :=
  ⟨by decide, by decide, by decide, by decide, by decide, by decide,
    by decide, le_refl 1, by norm_num, by norm_num, by decide,
    C1_roundtrip_uniform device001 session001 128 128 128 1 (by decide)
      (by decide) (by decide) (by decide) (by decide) (by decide)
      (by decide) (le_refl 1) (by norm_num) (by norm_num) (by decide)⟩

set_option maxRecDepth 100000 in
/-- C2's counterexample to the claim as stated: the 64×64 image has only
64 complete blocks, so detection recovers only the first 8 payload bytes;
the device identifier comes back as "DEVICE-0", not "DEVICE-001", and the
confidence is 232/256, not 1. -/
theorem C2_counterexample :
    (detect 64 64 (embed device001 session001 64 64
      (fun _ _ => 128) 1)).device_id ≠ device001 ∧
    (detect 64 64 (embed device001 session001 64 64
      (fun _ _ => 128) 1)).confidence ≠ 1 := by
  have hbits := extracted_bits_embed_const device001 session001 64 64 128 1
    (le_refl 1) (by norm_num) (by norm_num) (by decide) (by decide)
  norm_num at hbits
  constructor
  · simp only [detect]
    rw [hbits]
    decide
  · simp only [detect]
    rw [hbits]
    have h0 : ((payload_bits device001 session001).take 64 ++
        List.replicate 192 0).count 0 = 232 := by decide
    have h1 : ((payload_bits device001 session001).take 64 ++
        List.replicate 192 0).count 1 = 24 := by decide
    have hlen : ((payload_bits device001 session001).take 64 ++
        List.replicate 192 0).length = 256 := by decide
    unfold calculate_confidence
    rw [hlen, h0, h1, if_neg (show ¬(256 : Nat) = 0 by omega),
      if_neg (show ¬(232 : Nat) < 24 by omega), h0]
    norm_num

set_option maxRecDepth 100000 in
/-- C2 (amended): in the spec's concrete scenario (device "DEVICE-001",
session "SESSION-001", 64×64 uniform gray 128, strength 1) the embedder
produces the block-striped 127/129 pattern of the first 64 payload bits
(64 blocks exist, not 256), and the detector returns found = true,
device_id "DEVICE-0" (bytes 68..48), an empty session_id, confidence
232/256 = 29/32, and the payload "DEVICE-0" followed by 24 zero bytes. -/
theorem C2_concrete_scenario :
    (∀ r c : Nat, r < 64 → c < 64 →
      embed device001 session001 64 64 (fun _ _ => 128) 1 r c =
        if (payload_bits device001 session001).getD
            ((r / 8) * 8 + c / 8) 0 = 1 then 129 else 127) ∧
    detect 64 64 (embed device001 session001 64 64 (fun _ _ => 128) 1) =
      { found := true
        device_id := [68, 69, 86, 73, 67, 69, 45, 48]
        session_id := []
        confidence := 29 / 32
        payload := [68, 69, 86, 73, 67, 69, 45, 48] ++
          List.replicate 24 0 } := by
  constructor
  · intro r c hr hc
    have hr8 : r / 8 < 64 / 8 := by omega
    have hc8 : c / 8 < 64 / 8 := by omega
    rw [embed_const_in device001 session001 64 64 128 1 (by norm_num)
      (by norm_num) (by norm_num) r c hr8 hc8]
    have hidx : ((r / 8) * (64 / 8) + c / 8) % 256 =
        (r / 8) * 8 + c / 8 := by omega
    have hu1 : (⌊((128 : Nat) : ℚ) + 1⌋).toNat = 129 := by
      have hcast : ((128 : Nat) : ℚ) + 1 = ((129 : ℤ) : ℚ) := by norm_num
      rw [hcast, Int.floor_intCast]
      rfl
    have hu0 : (⌊((128 : Nat) : ℚ) - 1⌋).toNat = 127 := by
      have hcast : ((128 : Nat) : ℚ) - 1 = ((127 : ℤ) : ℚ) := by norm_num
      rw [hcast, Int.floor_intCast]
      rfl
    rw [hidx, hu1, hu0]
  · have hbits := extracted_bits_embed_const device001 session001 64 64 128 1
      (le_refl 1) (by norm_num) (by norm_num) (by decide) (by decide)
    norm_num at hbits
    simp only [detect]
    rw [hbits]
    have hpay : bits_to_payload ((payload_bits device001 session001).take 64
        ++ List.replicate 192 0) = [68, 69, 86, 73, 67, 69, 45, 48] ++
        List.replicate 24 0 := by decide
    rw [hpay]
    have hdev : rstrip_zeros (([68, 69, 86, 73, 67, 69, 45, 48] ++
        List.replicate 24 0).take 16) = [68, 69, 86, 73, 67, 69, 45, 48] := by
      decide
    have hses : rstrip_zeros ((([68, 69, 86, 73, 67, 69, 45, 48] ++
        List.replicate 24 0).drop 16).take 16) = [] := by decide
    rw [hdev, hses]
    have h0 : ((payload_bits device001 session001).take 64 ++
        List.replicate 192 0).count 0 = 232 := by decide
    have h1 : ((payload_bits device001 session001).take 64 ++
        List.replicate 192 0).count 1 = 24 := by decide
    have hlen : ((payload_bits device001 session001).take 64 ++
        List.replicate 192 0).length = 256 := by decide
    have hconf : calculate_confidence ((payload_bits device001
        session001).take 64 ++ List.replicate 192 0) = 29 / 32 := by
      unfold calculate_confidence
      rw [hlen, h0, h1, if_neg (show ¬(256 : Nat) = 0 by omega),
        if_neg (show ¬(232 : Nat) < 24 by omega), h0]
      norm_num
    rw [hconf]
    have hfound : decide (0 < ([68, 69, 86, 73, 67, 69, 45, 48] :
        List Nat).length ∧ (1 : ℚ) / 2 < 29 / 32) = true :=
      decide_eq_true ⟨by decide, by norm_num⟩
    rw [hfound]

theorem C2_concrete_scenario_witness :
    ((0 : Nat) < 64) ∧
    embed device001 session001 64 64 (fun _ _ => 128) 1 0 0 =
      (if (payload_bits device001 session001).getD
          ((0 / 8) * 8 + 0 / 8) 0 = 1 then 129 else 127) ∧
    detect 64 64 (embed device001 session001 64 64 (fun _ _ => 128) 1) =
      { found := true
        device_id := [68, 69, 86, 73, 67, 69, 45, 48]
        session_id := []
        confidence := 29 / 32
        payload := [68, 69, 86, 73, 67, 69, 45, 48] ++
          List.replicate 24 0 } :=
  ⟨by decide, C2_concrete_scenario.1 0 0 (by decide) (by decide),
    C2_concrete_scenario.2⟩
